import Mathlib

/-!
Verification of the httplatency address-canonicalization and latency-probing
core (src/lib.rs and src/bin/main.rs).

The repository's own code (`canonicalize_http_address`, `canonicalize_http_url`,
`fetch_url`, `record_latency`, `get_latency`, and the `results` pipeline of
`save_latencies`) is embedded directly.  The external `url` 0.2 library that the
code calls through hyper's `IntoUrl` (`Url::parse`, `Url::serialize`, the
`SchemeData::Relative`/`NonRelative` split) is modelled here at the fidelity
the embedded functions observe:

* scheme = leading `[A-Za-z][A-Za-z0-9+.-]*` before `:`, ASCII-lowercased;
  the special (a.k.a. relative) schemes are ftp, file, gopher, http, https,
  ws, wss; any other scheme yields `NonRelative` data holding the raw text up
  to `?`/`#`;
* relative URLs: leading slashes after the scheme are skipped leniently
  (`http:/host` parses), the authority runs to the first `/`, `?` or `#`,
  userinfo is split at the last `@` and kept verbatim, the host is
  ASCII-lowercased and restricted to `[a-z0-9._-]` (no IDNA, percent-encoding
  or IPv6 in the model) and must be nonempty except for `file`, the port must
  be decimal digits and at most 65535 and is dropped when it equals the
  scheme's default port, the path is split on `/` with no dot-segment
  handling, query and fragment are kept verbatim;
* serialization is `scheme ++ ":" ++ data` for nonrelative urls and
  `scheme://[userinfo@]host[:port]/path[?query][#fragment]` for relative ones,
  an absent path serializing as `/`.

The network and the wall clock are environment oracles: `net : String → Bool`
says whether one GET against an address completes, and `clock : Nat → Int`
gives the successive wall-clock readings (in milliseconds) that `time::now()`
returns; probe number `i` takes readings `2*i` and `2*i + 1`.  A Rust panic
(hyper's `.send().unwrap()` on a transport failure) is `Except.error`; the
inner `Result<Latency, String>` of `record_latency` is a nested `Except`.

One source quirk is modelled at its release-build meaning: for an empty port
text, `p.truncate(port.len()-1)` underflows its index; the model's
`List.dropLast` on `[]` is the identity, matching the release behaviour.
-/

/-- ASCII letter, as the `url` crate's scheme parser accepts for the first
scheme character. -/
def isAsciiAlpha (c : Char) : Bool :=
  (65 ≤ c.toNat && c.toNat ≤ 90) || (97 ≤ c.toNat && c.toNat ≤ 122)

/-- ASCII decimal digit. -/
def isDigitChar (c : Char) : Bool :=
  48 ≤ c.toNat && c.toNat ≤ 57

/-- Characters allowed after the first character of a URL scheme. -/
def isSchemeChar (c : Char) : Bool :=
  isAsciiAlpha c || isDigitChar c || c == '+' || c == '-' || c == '.'

/-- Characters the host model accepts: lower-case ASCII letters, digits,
`-`, `.` and `_` (the parser lower-cases the host first). -/
def isHostChar (c : Char) : Bool :=
  (97 ≤ c.toNat && c.toNat ≤ 122) || isDigitChar c || c == '-' || c == '.' || c == '_'

/-- Characters that terminate the authority of a relative URL. -/
def isAuthorityStop (c : Char) : Bool :=
  c == '/' || c == '?' || c == '#'

/-- Characters that terminate a path or nonrelative scheme data. -/
def isPathStop (c : Char) : Bool :=
  c == '?' || c == '#'

/-- ASCII lower-casing, as the `url` crate applies to schemes and hosts. -/
def asciiLower (c : Char) : Char :=
  if 65 ≤ c.toNat && c.toNat ≤ 90 then Char.ofNat (c.toNat + 32) else c

/-- Longest prefix on which `f` is false, together with the remainder. -/
def takeUntil (f : Char → Bool) : List Char → List Char × List Char
  | [] => ([], [])
  | c :: t =>
    if f c then ([], c :: t)
    else
      let r := takeUntil f t
      (c :: r.1, r.2)

/-- Split off the scheme: scan scheme characters up to the first `:`. -/
def schemeSplit : List Char → List Char → Option (List Char × List Char)
  | _, [] => none
  | acc, c :: t =>
    if c == ':' then some (acc.reverse, t)
    else if isSchemeChar c then schemeSplit (c :: acc) t
    else none

/-- True when the candidate scheme text starts with an ASCII letter. -/
def schemeHeadAlpha : List Char → Bool
  | [] => false
  | c :: _ => isAsciiAlpha c

/-- Split an authority at its last `@` into userinfo and host-port, when
an `@` is present. -/
def splitLastAmp : List Char → Option (List Char × List Char)
  | [] => none
  | c :: t =>
    match splitLastAmp t with
    | some p => some (c :: p.1, p.2)
    | none => if c == '@' then some ([], t) else none

/-- Split a character list on a delimiter; always returns a nonempty list of
segments (the empty input has one empty segment). -/
def splitChar (d : Char) : List Char → List (List Char)
  | [] => [[]]
  | c :: t =>
    match splitChar d t with
    | [] => [[]]
    | s :: ss => if c == d then [] :: s :: ss else (c :: s) :: ss

/-- Join path segments with `/` separators. -/
def joinSlash : List (List Char) → List Char
  | [] => []
  | [s] => s
  | s :: t :: r => s ++ '/' :: joinSlash (t :: r)

/-- Numeric value of a digit string. -/
def digitsVal (l : List Char) : Nat :=
  l.foldl (fun a c => a * 10 + (c.toNat - 48)) 0

/-- Rust's `str::parse::<i32>()`: an optional single sign, then one or more
decimal digits, value within the `i32` range. -/
def parseI32 (l : List Char) : Option Int :=
  let sd : Bool × List Char :=
    match l with
    | [] => (false, [])
    | c :: t => if c == '+' then (false, t) else if c == '-' then (true, t) else (false, c :: t)
  if sd.2 ≠ [] ∧ sd.2.all isDigitChar then
    if sd.1 then
      if digitsVal sd.2 ≤ 2147483648 then some (-(digitsVal sd.2 : Int)) else none
    else
      if digitsVal sd.2 ≤ 2147483647 then some ((digitsVal sd.2 : Int)) else none
  else none

/-- Host, optional port text and path of a relative (special-scheme) URL,
after the `url` 0.2 `RelativeSchemeData` (username and password are collapsed
into one verbatim userinfo field).  `port` keeps the digit text and is `none`
when absent or equal to the scheme's default port. -/
structure RelativeSchemeData where
  userinfo : Option (List Char)
  host : List Char
  port : Option (List Char)
  path : List (List Char)
deriving DecidableEq

/-- The `url` 0.2 `SchemeData`: parsed authority for special schemes, raw
text for every other scheme. -/
inductive SchemeData where
  | Relative : RelativeSchemeData → SchemeData
  | NonRelative : List Char → SchemeData
deriving DecidableEq

/-- The `url` 0.2 `Url` record as `canonicalize_http_address` rebuilds it:
scheme, scheme data, query, fragment. -/
structure Url where
  scheme : List Char
  schemeData : SchemeData
  query : Option (List Char)
  fragment : Option (List Char)
deriving DecidableEq

/-- The schemes the `url` 0.2 default scheme-type mapper treats as relative
(i.e. as carrying an authority). -/
def relativeSchemes : List (List Char) :=
  ["ftp".data, "file".data, "gopher".data, "http".data, "https".data, "ws".data, "wss".data]

/-- Default ports of the relative schemes. -/
def defaultPort (scheme : List Char) : Option Nat :=
  if scheme = "http".data then some 80
  else if scheme = "https".data then some 443
  else if scheme = "ftp".data then some 21
  else if scheme = "gopher".data then some 70
  else if scheme = "ws".data then some 80
  else if scheme = "wss".data then some 443
  else none

/-- Parse the `?query#fragment` tail of a URL. -/
def parseQueryFragment : List Char → Option (List Char) × Option (List Char)
  | [] => (none, none)
  | c :: t =>
    if c == '?' then
      let r := takeUntil (fun x => x == '#') t
      (some r.1, match r.2 with | _ :: ft => some ft | [] => none)
    else if c == '#' then (none, some t)
    else (none, none)

/-- Parse the path text (empty, or starting with `/`) into segments. -/
def parsePath : List Char → List (List Char)
  | [] => [[]]
  | _ :: t => splitChar '/' t

/-- Parse and validate the authority of a relative URL: split userinfo at the
last `@`, lower-case and validate the host (which only `file` may leave
empty), and validate the port, dropping it when it equals the scheme's
default. -/
def parseAuthority (scheme auth : List Char) :
    Option (Option (List Char) × List Char × Option (List Char)) :=
  let uihp : Option (List Char) × List Char :=
    match splitLastAmp auth with
    | some p => (some p.1, p.2)
    | none => (none, auth)
  let hp := takeUntil (fun c => c == ':') uihp.2
  let host := hp.1.map asciiLower
  if (host ≠ [] ∨ scheme = "file".data) ∧ host.all isHostChar then
    match hp.2 with
    | [] => some (uihp.1, host, none)
    | _ :: ptext =>
      if ptext = [] then some (uihp.1, host, none)
      else if ptext.all isDigitChar ∧ digitsVal ptext ≤ 65535 then
        if defaultPort scheme = some (digitsVal ptext) then some (uihp.1, host, none)
        else some (uihp.1, host, some ptext)
      else none
  else none

/-- Parse the remainder of a relative (special-scheme) URL after `scheme:`. -/
def parseRelative (scheme l : List Char) : Option Url :=
  let l1 := l.dropWhile (fun c => c == '/')
  let ar := takeUntil isAuthorityStop l1
  let pr := takeUntil isPathStop ar.2
  let qf := parseQueryFragment pr.2
  match parseAuthority scheme ar.1 with
  | some (ui, host, port) =>
    some { scheme := scheme,
           schemeData := SchemeData.Relative
             { userinfo := ui, host := host, port := port, path := parsePath pr.1 },
           query := qf.1, fragment := qf.2 }
  | none => none

/-- `Url::parse` of the `url` 0.2 crate, at the fidelity described in the
header comment. -/
def parseUrlChars (l : List Char) : Option Url :=
  match schemeSplit [] l with
  | none => none
  | some (schRaw, rest) =>
    if schemeHeadAlpha schRaw then
      let scheme := schRaw.map asciiLower
      if scheme ∈ relativeSchemes then parseRelative scheme rest
      else
        let dr := takeUntil isPathStop rest
        let qf := parseQueryFragment dr.2
        some { scheme := scheme, schemeData := SchemeData.NonRelative dr.1,
               query := qf.1, fragment := qf.2 }
    else none

/-- hyper's `IntoUrl` on a string: `Url::parse`. -/
def parseUrl (s : String) : Option Url :=
  parseUrlChars s.data

/-- Serialization of an optional userinfo (followed by `@` when present). -/
def serializeUserinfo (ui : Option (List Char)) : List Char :=
  match ui with
  | some uc => uc ++ ['@']
  | none => []

/-- Serialization of an optional port text (preceded by `:` when present). -/
def serializePort (port : Option (List Char)) : List Char :=
  match port with
  | some pt => ':' :: pt
  | none => []

/-- Serialization of the authority-bearing part of a relative URL. -/
def serializeRel (r : RelativeSchemeData) : List Char :=
  serializeUserinfo r.userinfo ++
  r.host ++
  serializePort r.port ++
  '/' :: joinSlash r.path

/-- Serialization of the `?query#fragment` tail. -/
def serializeQF (q f : Option (List Char)) : List Char :=
  (match q with | some qc => '?' :: qc | none => []) ++
  (match f with | some fc => '#' :: fc | none => [])

/-- `Url::serialize` of the `url` 0.2 crate, on the character level. -/
def serializeUrlChars (u : Url) : List Char :=
  u.scheme ++ ':' ::
  ((match u.schemeData with
    | SchemeData.Relative r => '/' :: '/' :: serializeRel r
    | SchemeData.NonRelative d => d) ++
   serializeQF u.query u.fragment)

/-- `Url::serialize` as the Rust code calls it. -/
def Url.serialize (u : Url) : String :=
  (serializeUrlChars u).asString

/-- src/lib.rs `canonicalize_http_url`: keep http(s) URLs as serialized;
reject other relative-scheme URLs; otherwise treat the nonrelative data as a
port, inferring `https` for 443 with a one-character-truncation retry and a
lenient `http` fallback. -/
def canonicalize_http_url (url : Url) : Option String :=
  if url.scheme = "http".data ∨ url.scheme = "https".data then some url.serialize
  else
    match url.schemeData with
    | SchemeData.Relative _ => none
    | SchemeData.NonRelative port =>
      match parseI32 port with
      | some 443 => some ("https://" ++ url.serialize)
      | some _ => some ("http://" ++ url.serialize)
      | none =>
        match parseI32 port.dropLast with
        | some 443 => some ("https://" ++ url.serialize)
        | some _ => some ("http://" ++ url.serialize)
        | none => some ("http" ++ url.serialize)

/-- src/lib.rs `canonicalize_http_address`: parse directly, and on failure
re-parse behind a synthetic `fake://` scheme and blank the scheme out. -/
def canonicalize_http_address (s : String) : Option String :=
  match parseUrl s with
  | some u => canonicalize_http_url u
  | none =>
    match parseUrl ("fake://" ++ s) with
    | some v =>
      canonicalize_http_url
        { scheme := [], schemeData := v.schemeData, query := v.query, fragment := v.fragment }
    | none => none

/-- The `Url` value that `canonicalize_http_address` hands to
`canonicalize_http_url` (directly parsed, or parsed behind the synthetic
scheme and blanked). -/
def canonUrlOf (s : String) : Option Url :=
  match parseUrl s with
  | some u => some u
  | none =>
    match parseUrl ("fake://" ++ s) with
    | some v =>
      some { scheme := [], schemeData := v.schemeData, query := v.query, fragment := v.fragment }
    | none => none

/-- src/lib.rs `Latency`: the measured site and its latency in milliseconds. -/
structure Latency where
  url : String
  latency_ms : Int
deriving DecidableEq

/-- src/lib.rs `fetch_url`: one GET through the network oracle; hyper's
`.send().unwrap()` panics on a transport failure. -/
def fetch_url (net : String → Bool) (url : String) : Except String Unit :=
  if net url then Except.ok () else Except.error "panic: transport failure"

/-- src/lib.rs `record_latency`: wall-clock reading, fetch (panic passes
through), wall-clock reading, and an always-`Ok` `Result`. -/
def record_latency (clock : Nat → Int) (net : String → Bool) (k : Nat) (s : String) :
    Except String (Except String Latency) :=
  match fetch_url net s with
  | Except.error e => Except.error e
  | Except.ok _ =>
    Except.ok (Except.ok { url := s, latency_ms := clock (k + 1) - clock k })

/-- src/lib.rs `get_latency`: turn the `Result` of `record_latency` into an
`Option` (the error branch being dead code). -/
def get_latency (clock : Nat → Int) (net : String → Bool) (k : Nat) (site : String) :
    Except String (Option Latency) :=
  match record_latency clock net k site with
  | Except.error e => Except.error e
  | Except.ok lat =>
    match lat with
    | Except.ok l => Except.ok (some l)
    | Except.error _ => Except.ok none

/-- Sequential probe of a list of canonical addresses, threading the clock
counter; a panic aborts the whole run. -/
def probe_list (clock : Nat → Int) (net : String → Bool) :
    Nat → List String → Except String (List Latency)
  | _, [] => Except.ok []
  | k, s :: rest =>
    match get_latency clock net k s with
    | Except.error e => Except.error e
    | Except.ok o =>
      match probe_list clock net (k + 2) rest with
      | Except.error e => Except.error e
      | Except.ok r => Except.ok (match o with | some l => l :: r | none => r)

/-- src/bin/main.rs `save_latencies`, lines 92-97: the `results` computation
(file input and JSON output are environment concerns outside the core). -/
def save_latencies (clock : Nat → Int) (net : String → Bool) (urls : List String) :
    Except String (List Latency) :=
  probe_list clock net 0 (urls.filterMap canonicalize_http_address)

/-- Modelled from the spec: the record sequence §6 prescribes for the
successfully probed canonical addresses, in input order, one record per
address, each carrying the canonical address it probed. -/
def expected_records (clock : Nat → Int) : Nat → List String → List Latency
  | _, [] => []
  | k, c :: cs =>
    { url := c, latency_ms := clock (k + 1) - clock k } :: expected_records clock (k + 2) cs

/-! ### Toolkit lemmas about the character-list utilities -/

theorem takeUntil_eq (f : Char → Bool) (a b : List Char)
    (ha : ∀ c ∈ a, f c = false) (hb : ∀ c ∈ b.take 1, f c = true) :
    takeUntil f (a ++ b) = (a, b) := by
  induction a with
  | nil =>
    cases b with
    | nil => rfl
    | cons c t =>
      have hc : f c = true := hb c (by simp)
      simp [takeUntil, hc]
  | cons c a ih =>
    have hc : f c = false := ha c (List.mem_cons_self c a)
    have ih2 := ih (fun x hx => ha x (List.mem_cons_of_mem _ hx))
    simp [takeUntil, hc, ih2]

theorem takeUntil_fst_false (f : Char → Bool) (l : List Char) :
    ∀ c ∈ (takeUntil f l).1, f c = false := by
  induction l with
  | nil => intro c hc; simp [takeUntil] at hc
  | cons a t ih =>
    intro c hc
    cases ha : f a with
    | true => simp [takeUntil, ha] at hc
    | false =>
      simp only [takeUntil, ha, Bool.false_eq_true, if_false] at hc
      rcases List.mem_cons.1 hc with rfl | hc
      · exact ha
      · exact ih c hc

theorem takeUntil_append (f : Char → Bool) (l : List Char) :
    (takeUntil f l).1 ++ (takeUntil f l).2 = l := by
  induction l with
  | nil => rfl
  | cons a t ih =>
    cases ha : f a with
    | true => simp [takeUntil, ha]
    | false => simp [takeUntil, ha, ih]

theorem takeUntil_snd_head (f : Char → Bool) (l : List Char) :
    ∀ c ∈ (takeUntil f l).2.take 1, f c = true := by
  induction l with
  | nil => intro c hc; simp [takeUntil] at hc
  | cons a t ih =>
    intro c hc
    cases ha : f a with
    | true =>
      simp only [takeUntil, ha, if_true, List.take, List.mem_cons, List.not_mem_nil,
        or_false] at hc
      cases hc
      exact ha
    | false =>
      simp only [takeUntil, ha, Bool.false_eq_true, if_false] at hc
      exact ih c hc

theorem splitLastAmp_none (l : List Char) (h : ∀ c ∈ l, c ≠ '@') :
    splitLastAmp l = none := by
  induction l with
  | nil => rfl
  | cons a t ih =>
    have ht := ih (fun c hc => h c (List.mem_cons_of_mem _ hc))
    have ha : (a == '@') = false := by
      simpa using h a (List.mem_cons_self a t)
    simp [splitLastAmp, ht, ha]

theorem splitLastAmp_eq (a b : List Char) (hb : ∀ c ∈ b, c ≠ '@') :
    splitLastAmp (a ++ '@' :: b) = some (a, b) := by
  induction a with
  | nil => simp [splitLastAmp, splitLastAmp_none b hb]
  | cons x a ih => simp [splitLastAmp, ih]

theorem splitLastAmp_some (l a b : List Char) (h : splitLastAmp l = some (a, b)) :
    l = a ++ '@' :: b := by
  induction l generalizing a b with
  | nil => simp [splitLastAmp] at h
  | cons x t ih =>
    simp only [splitLastAmp] at h
    cases hs : splitLastAmp t with
    | some p =>
      rw [hs] at h
      simp only [Option.some.injEq, Prod.mk.injEq] at h
      obtain ⟨rfl, rfl⟩ := h
      have ht := ih p.1 p.2 hs
      simp [ht]
    | none =>
      rw [hs] at h
      cases hx : (x == '@') with
      | true =>
        simp only [hx, if_true, Option.some.injEq, Prod.mk.injEq] at h
        obtain ⟨rfl, rfl⟩ := h
        have : x = '@' := by simpa using hx
        simp [this]
      | false => simp [hx] at h

theorem splitChar_cons (d c : Char) (t : List Char) :
    splitChar d (c :: t) =
      match splitChar d t with
      | [] => [[]]
      | s :: ss => if c == d then [] :: s :: ss else (c :: s) :: ss := rfl

theorem splitChar_ne_nil (d : Char) (l : List Char) : splitChar d l ≠ [] := by
  cases l with
  | nil => simp [splitChar]
  | cons c t =>
    simp only [splitChar]
    cases h : splitChar d t with
    | nil => simp
    | cons s ss => cases hc : (c == d) <;> simp [hc]

theorem splitChar_single (d : Char) (l : List Char) (h : ∀ c ∈ l, c ≠ d) :
    splitChar d l = [l] := by
  induction l with
  | nil => rfl
  | cons c t ih =>
    have ht := ih (fun x hx => h x (List.mem_cons_of_mem _ hx))
    have hc : (c == d) = false := by
      simpa using h c (List.mem_cons_self c t)
    simp [splitChar, ht, hc]

theorem splitChar_append (d : Char) (a r : List Char) (h : ∀ c ∈ a, c ≠ d) :
    splitChar d (a ++ d :: r) = a :: splitChar d r := by
  induction a with
  | nil =>
    rw [List.nil_append, splitChar_cons]
    cases hs : splitChar d r with
    | nil => exact absurd hs (splitChar_ne_nil d r)
    | cons s ss => simp
  | cons c a ih =>
    have hc : (c == d) = false := by
      simpa using h c (List.mem_cons_self c a)
    have ih2 := ih (fun x hx => h x (List.mem_cons_of_mem _ hx))
    rw [List.cons_append, splitChar_cons, ih2]
    simp [hc]

theorem splitChar_mem (d : Char) (l : List Char) :
    ∀ s ∈ splitChar d l, ∀ c ∈ s, c ∈ l ∧ c ≠ d := by
  induction l with
  | nil =>
    intro s hs c hc
    simp only [splitChar, List.mem_cons, List.not_mem_nil, or_false] at hs
    subst hs
    simp at hc
  | cons a t ih =>
    intro s hs c hc
    cases hsp : splitChar d t with
    | nil => exact absurd hsp (splitChar_ne_nil d t)
    | cons x ss =>
      have key : splitChar d (a :: t) = if a == d then [] :: x :: ss else (a :: x) :: ss := by
        rw [splitChar_cons, hsp]
      rw [key] at hs
      cases ha : (a == d) with
      | true =>
        simp only [ha, if_true] at hs
        rcases List.mem_cons.1 hs with rfl | hs2
        · simp at hc
        · have h2 := ih s (by rw [hsp]; exact hs2) c hc
          exact ⟨List.mem_cons_of_mem _ h2.1, h2.2⟩
      | false =>
        simp only [ha, Bool.false_eq_true, if_false] at hs
        rcases List.mem_cons.1 hs with rfl | hs2
        · rcases List.mem_cons.1 hc with rfl | hc2
          · exact ⟨List.mem_cons_self _ _, by simpa using ha⟩
          · have h2 := ih x (by rw [hsp]; exact List.mem_cons_self x ss) c hc2
            exact ⟨List.mem_cons_of_mem _ h2.1, h2.2⟩
        · have h2 := ih s (by rw [hsp]; exact List.mem_cons_of_mem _ hs2) c hc
          exact ⟨List.mem_cons_of_mem _ h2.1, h2.2⟩

theorem joinSlash_cons (s : List Char) (r : List (List Char)) (h : r ≠ []) :
    joinSlash (s :: r) = s ++ '/' :: joinSlash r := by
  cases r with
  | nil => exact absurd rfl h
  | cons t rr => rfl

theorem splitChar_joinSlash (segs : List (List Char)) (hne : segs ≠ [])
    (h : ∀ s ∈ segs, ∀ c ∈ s, c ≠ '/') :
    splitChar '/' (joinSlash segs) = segs := by
  induction segs with
  | nil => exact absurd rfl hne
  | cons s rest ih =>
    cases rest with
    | nil => exact splitChar_single '/' s (h s (List.mem_cons_self _ _))
    | cons t rr =>
      rw [joinSlash_cons s (t :: rr) (by simp)]
      rw [splitChar_append '/' s _ (h s (List.mem_cons_self _ _))]
      rw [ih (by simp) (fun x hx => h x (List.mem_cons_of_mem _ hx))]

theorem joinSlash_all (f : Char → Bool) (segs : List (List Char))
    (hsl : f '/' = false) (h : ∀ s ∈ segs, ∀ c ∈ s, f c = false) :
    ∀ c ∈ joinSlash segs, f c = false := by
  induction segs with
  | nil => intro c hc; simp [joinSlash] at hc
  | cons s rest ih =>
    cases rest with
    | nil => intro c hc; exact h s (List.mem_cons_self _ _) c hc
    | cons t rr =>
      intro c hc
      rw [joinSlash_cons s (t :: rr) (by simp)] at hc
      rcases List.mem_append.1 hc with hc | hc
      · exact h s (List.mem_cons_self _ _) c hc
      · rcases List.mem_cons.1 hc with rfl | hc
        · exact hsl
        · exact ih (fun x hx => h x (List.mem_cons_of_mem _ hx)) c hc

/-! ### Character-class lemmas -/

theorem asciiLower_eq_self (c : Char) (h : ¬(65 ≤ c.toNat ∧ c.toNat ≤ 90)) :
    asciiLower c = c := by
  cases hbb : (65 ≤ c.toNat && c.toNat ≤ 90) with
  | true =>
    rw [Bool.and_eq_true, decide_eq_true_eq, decide_eq_true_eq] at hbb
    exact absurd hbb h
  | false => simp [asciiLower, hbb]

theorem hostChar_asciiLower (c : Char) (h : isHostChar c = true) : asciiLower c = c := by
  unfold isHostChar isDigitChar at h
  simp only [Bool.or_eq_true, Bool.and_eq_true, decide_eq_true_eq, beq_iff_eq] at h
  rcases h with ((⟨h1, h2⟩ | ⟨h1, h2⟩) | rfl) | rfl | rfl
  · exact asciiLower_eq_self c (by omega)
  · exact asciiLower_eq_self c (by omega)
  · decide
  · decide
  · decide

theorem hostChar_not_class (c : Char) (h : isHostChar c = true) :
    isAuthorityStop c = false ∧ isPathStop c = false ∧ (c == ':') = false ∧ c ≠ '@' ∧ c ≠ '/' := by
  have hne : ∀ d : Char, isHostChar d = false → c ≠ d := by
    intro d hd he
    rw [he, hd] at h
    cases h
  have e1 : (c == '/') = false := by simpa using hne '/' (by decide)
  have e2 : (c == '?') = false := by simpa using hne '?' (by decide)
  have e3 : (c == '#') = false := by simpa using hne '#' (by decide)
  have e4 : (c == ':') = false := by simpa using hne ':' (by decide)
  refine ⟨?_, ?_, e4, hne '@' (by decide), hne '/' (by decide)⟩
  · unfold isAuthorityStop
    rw [e1, e2, e3]
    rfl
  · unfold isPathStop
    rw [e2, e3]
    rfl

theorem digitChar_not_class (c : Char) (h : isDigitChar c = true) :
    isAuthorityStop c = false ∧ isPathStop c = false ∧ (c == ':') = false ∧ c ≠ '@' := by
  have hne : ∀ d : Char, isDigitChar d = false → c ≠ d := by
    intro d hd he
    rw [he, hd] at h
    cases h
  have e1 : (c == '/') = false := by simpa using hne '/' (by decide)
  have e2 : (c == '?') = false := by simpa using hne '?' (by decide)
  have e3 : (c == '#') = false := by simpa using hne '#' (by decide)
  have e4 : (c == ':') = false := by simpa using hne ':' (by decide)
  refine ⟨?_, ?_, e4, hne '@' (by decide)⟩
  · unfold isAuthorityStop
    rw [e1, e2, e3]
    rfl
  · unfold isPathStop
    rw [e2, e3]
    rfl

theorem not_authorityStop_facts (c : Char) (h : isAuthorityStop c = false) :
    c ≠ '/' ∧ c ≠ '?' ∧ c ≠ '#' ∧ isPathStop c = false := by
  unfold isAuthorityStop at h
  rw [Bool.or_eq_false_iff, Bool.or_eq_false_iff] at h
  obtain ⟨⟨h1, h2⟩, h3⟩ := h
  refine ⟨by simpa using h1, by simpa using h2, by simpa using h3, ?_⟩
  unfold isPathStop
  rw [h2, h3]
  rfl

/-! ### Scheme-splitting lemmas -/

theorem schemeSplit_append (sch R : List Char)
    (h : ∀ c ∈ sch, isSchemeChar c = true ∧ (c == ':') = false) :
    ∀ acc, schemeSplit acc (sch ++ ':' :: R) = some (acc.reverse ++ sch, R) := by
  induction sch with
  | nil => intro acc; simp [schemeSplit]
  | cons c t ih =>
    intro acc
    have hc := h c (List.mem_cons_self _ _)
    have iht := ih (fun x hx => h x (List.mem_cons_of_mem _ hx))
    rw [List.cons_append]
    simp only [schemeSplit, hc.2, hc.1, Bool.false_eq_true, if_false, if_true]
    rw [iht (c :: acc)]
    simp

theorem http_scheme_chars : ∀ c ∈ "http".data, isSchemeChar c = true ∧ (c == ':') = false := by
  decide

theorem https_scheme_chars : ∀ c ∈ "https".data, isSchemeChar c = true ∧ (c == ':') = false := by
  decide

/-! ### Parser inversion lemmas -/

theorem parseRelative_some (scheme l : List Char) (u : Url)
    (h : parseRelative scheme l = some u) :
    u.scheme = scheme ∧ ∃ rd, u.schemeData = SchemeData.Relative rd := by
  unfold parseRelative at h
  dsimp only at h
  split at h
  · obtain rfl := Option.some.inj h
    exact ⟨rfl, _, rfl⟩
  · cases h

theorem parseUrlChars_scheme_class (l : List Char) (u : Url)
    (h : parseUrlChars l = some u) :
    (u.scheme ∈ relativeSchemes → ∃ rd, u.schemeData = SchemeData.Relative rd) ∧
    (∀ p, u.schemeData = SchemeData.NonRelative p → u.scheme ∉ relativeSchemes) := by
  unfold parseUrlChars at h
  split at h
  · cases h
  · dsimp only at h
    split at h
    · split at h
      case isTrue hmem =>
        have hps := parseRelative_some _ _ _ h
        constructor
        · intro _
          exact hps.2
        · intro p hp
          obtain ⟨rd, hrd⟩ := hps.2
          rw [hp] at hrd
          cases hrd
      case isFalse hmem =>
        obtain rfl := Option.some.inj h
        exact ⟨fun hmem2 => absurd hmem2 hmem, fun p _ => hmem⟩
    · cases h

theorem parseUrlChars_rel_rest (l : List Char) (u : Url) (rd : RelativeSchemeData)
    (h : parseUrlChars l = some u) (hrd : u.schemeData = SchemeData.Relative rd) :
    ∃ rest, parseRelative u.scheme rest = some u := by
  unfold parseUrlChars at h
  split at h
  · cases h
  · dsimp only at h
    split at h
    · split at h
      case isTrue hmem =>
        have hps := parseRelative_some _ _ _ h
        exact ⟨_, hps.1 ▸ h⟩
      case isFalse hmem =>
        obtain rfl := Option.some.inj h
        cases hrd
    · cases h

/-! ### Reparse lemmas for serialized urls -/

theorem map_asciiLower_id (l : List Char) (h : ∀ c ∈ l, isHostChar c = true) :
    l.map asciiLower = l := by
  induction l with
  | nil => rfl
  | cons c t ih =>
    rw [List.map_cons, hostChar_asciiLower c (h c (List.mem_cons_self _ _)),
      ih (fun x hx => h x (List.mem_cons_of_mem _ hx))]

theorem dropWhile_eq_self_of_head (p : Char → Bool) (l : List Char)
    (h : ∀ c ∈ l.take 1, p c = false) : l.dropWhile p = l := by
  cases l with
  | nil => rfl
  | cons a t =>
    rw [List.dropWhile_cons]
    simp [h a (by simp)]

theorem parseQueryFragment_build (q f : Option (List Char))
    (hq : ∀ qc, q = some qc → ∀ c ∈ qc, c ≠ '#') :
    parseQueryFragment (serializeQF q f) = (q, f) := by
  cases q with
  | some qc =>
    have hqc : ∀ c ∈ qc, ((c == '#') : Bool) = false := by
      intro c hc
      simpa using hq qc rfl c hc
    cases f with
    | some fc =>
      have h1 : parseQueryFragment (serializeQF (some qc) (some fc)) =
          (some (takeUntil (fun x => x == '#') (qc ++ '#' :: fc)).1,
           match (takeUntil (fun x => x == '#') (qc ++ '#' :: fc)).2 with
           | _ :: ft => some ft
           | [] => none) := rfl
      rw [h1, takeUntil_eq (fun x => x == '#') qc ('#' :: fc) hqc
        (by intro c hc; simp at hc; subst hc; rfl)]
    | none =>
      have h1 : parseQueryFragment (serializeQF (some qc) none) =
          (some (takeUntil (fun x => x == '#') (qc ++ [])).1,
           match (takeUntil (fun x => x == '#') (qc ++ [])).2 with
           | _ :: ft => some ft
           | [] => none) := rfl
      rw [h1, takeUntil_eq (fun x => x == '#') qc [] hqc (by intro c hc; simp at hc)]
  | none =>
    cases f with
    | some fc => rfl
    | none => rfl

theorem parseAuthority_build (scheme : List Char) (ui : Option (List Char)) (host : List Char)
    (port : Option (List Char))
    (hhost_ne : host ≠ [])
    (hhost : ∀ c ∈ host, isHostChar c = true)
    (hport : ∀ pt, port = some pt → pt ≠ [] ∧ (∀ c ∈ pt, isDigitChar c = true) ∧
      digitsVal pt ≤ 65535 ∧ defaultPort scheme ≠ some (digitsVal pt)) :
    parseAuthority scheme (serializeUserinfo ui ++ host ++ serializePort port) =
      some (ui, host, port) := by
  have hb : ∀ c ∈ host ++ serializePort port, c ≠ '@' := by
    intro c hc
    rcases List.mem_append.1 hc with hc | hc
    · exact (hostChar_not_class c (hhost c hc)).2.2.2.1
    · cases port with
      | some pt =>
        simp only [serializePort] at hc
        rcases List.mem_cons.1 hc with rfl | hc2
        · decide
        · have hd := (hport pt rfl).2.1 c hc2
          intro he
          subst he
          exact absurd hd (by decide)
      | none => simp [serializePort] at hc
  have hcolon : ∀ c ∈ host, ((c == ':') : Bool) = false :=
    fun c hc => (hostChar_not_class c (hhost c hc)).2.2.1
  have htu : takeUntil (fun c => c == ':') (host ++ serializePort port) =
      (host, serializePort port) := by
    cases port with
    | some pt =>
      exact takeUntil_eq _ host (':' :: pt) hcolon (by intro c hc; simp at hc; subst hc; rfl)
    | none =>
      simp only [serializePort, List.append_nil]
      have := takeUntil_eq (fun c => c == ':') host [] hcolon (by intro c hc; simp at hc)
      rw [List.append_nil] at this
      exact this
  have hmap : host.map asciiLower = host := map_asciiLower_id host hhost
  have hguard : (host ≠ [] ∨ scheme = "file".data) ∧ host.all isHostChar = true :=
    ⟨Or.inl hhost_ne, List.all_eq_true.2 hhost⟩
  have hlast : (match (host, serializePort port).2 with
      | [] => some ((ui, host, none) : Option (List Char) × List Char × Option (List Char))
      | _ :: ptext =>
        if ptext = [] then some (ui, host, none)
        else if ptext.all isDigitChar ∧ digitsVal ptext ≤ 65535 then
          if defaultPort scheme = some (digitsVal ptext) then some (ui, host, none)
          else some (ui, host, some ptext)
        else none) = some (ui, host, port) := by
    cases port with
    | none => rfl
    | some pt =>
      obtain ⟨hne, hdig, hle, hdef⟩ := hport pt rfl
      show (if pt = [] then some ((ui, host, none) : Option (List Char) × List Char × Option (List Char))
        else if pt.all isDigitChar ∧ digitsVal pt ≤ 65535 then
          if defaultPort scheme = some (digitsVal pt) then some (ui, host, none)
          else some (ui, host, some pt)
        else none) = some (ui, host, some pt)
      rw [if_neg hne, if_pos ⟨List.all_eq_true.2 hdig, hle⟩, if_neg hdef]
  cases ui with
  | none =>
    simp only [serializeUserinfo, List.nil_append]
    unfold parseAuthority
    dsimp only
    rw [splitLastAmp_none _ hb]
    dsimp only
    rw [htu]
    dsimp only
    rw [hmap, if_pos hguard]
    exact hlast
  | some uc =>
    have hassoc : (uc ++ ['@']) ++ host ++ serializePort port =
        uc ++ '@' :: (host ++ serializePort port) := by
      simp
    simp only [serializeUserinfo]
    rw [hassoc]
    unfold parseAuthority
    dsimp only
    rw [splitLastAmp_eq uc _ hb]
    dsimp only
    rw [htu]
    dsimp only
    rw [hmap, if_pos hguard]
    exact hlast

theorem parseRelative_build (scheme : List Char) (rd : RelativeSchemeData)
    (q f : Option (List Char))
    (hui : ∀ uc, rd.userinfo = some uc → ∀ c ∈ uc, isAuthorityStop c = false)
    (hhost_ne : rd.host ≠ [])
    (hhost : ∀ c ∈ rd.host, isHostChar c = true)
    (hport : ∀ pt, rd.port = some pt → pt ≠ [] ∧ (∀ c ∈ pt, isDigitChar c = true) ∧
      digitsVal pt ≤ 65535 ∧ defaultPort scheme ≠ some (digitsVal pt))
    (hpath_ne : rd.path ≠ [])
    (hpath : ∀ s ∈ rd.path, ∀ c ∈ s, c ≠ '/' ∧ isPathStop c = false)
    (hq : ∀ qc, q = some qc → ∀ c ∈ qc, c ≠ '#') :
    parseRelative scheme ('/' :: '/' :: (serializeRel rd ++ serializeQF q f)) =
      some { scheme := scheme, schemeData := SchemeData.Relative rd,
             query := q, fragment := f } := by
  have hser_head : ∃ c0 rest0, serializeRel rd = c0 :: rest0 ∧ ((c0 == '/') : Bool) = false := by
    unfold serializeRel serializeUserinfo
    cases hui2 : rd.userinfo with
    | some uc =>
      cases uc with
      | nil =>
        exact ⟨'@', rd.host ++ (serializePort rd.port ++ '/' :: joinSlash rd.path),
          by simp, by decide⟩
      | cons c0 t =>
        have h0 := hui (c0 :: t) hui2 c0 (List.mem_cons_self _ _)
        exact ⟨c0, t ++ ['@'] ++ (rd.host ++ (serializePort rd.port ++ '/' :: joinSlash rd.path)),
          by simp, by simpa using (not_authorityStop_facts c0 h0).1⟩
    | none =>
      cases hh : rd.host with
      | nil => exact absurd hh hhost_ne
      | cons c0 t =>
        have h0 := hhost c0 (by rw [hh]; exact List.mem_cons_self _ _)
        exact ⟨c0, t ++ (serializePort rd.port ++ '/' :: joinSlash rd.path),
          by simp, by simpa using (hostChar_not_class c0 h0).2.2.2.2⟩
  obtain ⟨c0, rest0, hser, hc0⟩ := hser_head
  have hdrop : List.dropWhile (fun c => c == '/')
      ('/' :: '/' :: (serializeRel rd ++ serializeQF q f)) =
      serializeRel rd ++ serializeQF q f := by
    rw [List.dropWhile_cons, if_pos (by decide), List.dropWhile_cons, if_pos (by decide)]
    apply dropWhile_eq_self_of_head
    intro c hc
    rw [hser] at hc
    simp only [List.cons_append, List.take, List.mem_cons, List.not_mem_nil, or_false] at hc
    subst hc
    exact hc0
  have hfront : ∀ c ∈ serializeUserinfo rd.userinfo ++ (rd.host ++ serializePort rd.port),
      isAuthorityStop c = false := by
    intro c hc
    rcases List.mem_append.1 hc with hc | hc
    · cases hui2 : rd.userinfo with
      | some uc =>
        rw [hui2] at hc
        simp only [serializeUserinfo] at hc
        rcases List.mem_append.1 hc with hc | hc
        · exact hui uc hui2 c hc
        · simp only [List.mem_cons, List.not_mem_nil, or_false] at hc
          subst hc
          decide
      | none => rw [hui2] at hc; simp [serializeUserinfo] at hc
    · rcases List.mem_append.1 hc with hc | hc
      · exact (hostChar_not_class c (hhost c hc)).1
      · cases hp2 : rd.port with
        | some pt =>
          rw [hp2] at hc
          simp only [serializePort] at hc
          rcases List.mem_cons.1 hc with rfl | hc2
          · decide
          · exact (digitChar_not_class c ((hport pt hp2).2.1 c hc2)).1
        | none => rw [hp2] at hc; simp [serializePort] at hc
  have har : takeUntil isAuthorityStop (serializeRel rd ++ serializeQF q f) =
      (serializeUserinfo rd.userinfo ++ (rd.host ++ serializePort rd.port),
       '/' :: (joinSlash rd.path ++ serializeQF q f)) := by
    have e1 : serializeRel rd ++ serializeQF q f =
        (serializeUserinfo rd.userinfo ++ (rd.host ++ serializePort rd.port)) ++
        ('/' :: (joinSlash rd.path ++ serializeQF q f)) := by
      simp [serializeRel, List.append_assoc]
    rw [e1, takeUntil_eq isAuthorityStop _ _ hfront
      (by intro c hc; simp only [List.take, List.mem_cons, List.not_mem_nil, or_false] at hc;
          subst hc; decide)]
  have hpr : takeUntil isPathStop ('/' :: (joinSlash rd.path ++ serializeQF q f)) =
      ('/' :: joinSlash rd.path, serializeQF q f) := by
    have e2 : '/' :: (joinSlash rd.path ++ serializeQF q f) =
        ('/' :: joinSlash rd.path) ++ serializeQF q f := by simp
    rw [e2, takeUntil_eq isPathStop _ _ ?front ?hd]
    case front =>
      intro c hc
      rcases List.mem_cons.1 hc with rfl | hc
      · decide
      · exact joinSlash_all isPathStop rd.path (by decide)
          (fun s hs c2 hc2 => (hpath s hs c2 hc2).2) c hc
    case hd =>
      intro c hc
      cases hq2 : q with
      | some qc =>
        rw [hq2] at hc
        simp only [serializeQF, List.cons_append, List.take, List.mem_cons,
          List.not_mem_nil, or_false] at hc
        subst hc
        decide
      | none =>
        cases hf2 : f with
        | some fc =>
          rw [hq2, hf2] at hc
          simp only [serializeQF, List.nil_append, List.take, List.mem_cons,
            List.not_mem_nil, or_false] at hc
          subst hc
          decide
        | none => rw [hq2, hf2] at hc; simp [serializeQF] at hc
  have hauth : parseAuthority scheme
      (serializeUserinfo rd.userinfo ++ (rd.host ++ serializePort rd.port)) =
      some (rd.userinfo, rd.host, rd.port) := by
    rw [← List.append_assoc]
    exact parseAuthority_build scheme rd.userinfo rd.host rd.port hhost_ne hhost hport
  have hpp : parsePath ('/' :: joinSlash rd.path) = rd.path := by
    show splitChar '/' (joinSlash rd.path) = rd.path
    exact splitChar_joinSlash rd.path hpath_ne (fun s hs c hc => (hpath s hs c hc).1)
  unfold parseRelative
  dsimp only
  rw [hdrop, har]
  dsimp only
  rw [hpr]
  dsimp only
  rw [parseQueryFragment_build q f hq, hauth, hpp]

/-! ### Well-formedness of parsed urls -/

theorem parseAuthority_some (scheme auth : List Char)
    (ui : Option (List Char)) (host : List Char) (port : Option (List Char))
    (h : parseAuthority scheme auth = some (ui, host, port)) :
    (host ≠ [] ∨ scheme = "file".data) ∧ (∀ c ∈ host, isHostChar c = true) ∧
    (∀ pt, port = some pt → pt ≠ [] ∧ (∀ c ∈ pt, isDigitChar c = true) ∧
      digitsVal pt ≤ 65535 ∧ defaultPort scheme ≠ some (digitsVal pt)) ∧
    (∀ uc, ui = some uc → ∀ c ∈ uc, c ∈ auth) := by
  have hmem : ∀ uc, (match splitLastAmp auth with
      | some p => ((some p.1 : Option (List Char)), p.2)
      | none => (none, auth)).1 = some uc → ∀ c ∈ uc, c ∈ auth := by
    intro uc huc c hc
    cases hsp : splitLastAmp auth with
    | some p =>
      rw [hsp] at huc
      dsimp only at huc
      obtain rfl := Option.some.inj huc
      have h2 := splitLastAmp_some auth p.1 p.2 (by rw [hsp])
      rw [h2]
      exact List.mem_append.2 (Or.inl hc)
    | none =>
      rw [hsp] at huc
      dsimp only at huc
      cases huc
  unfold parseAuthority at h
  dsimp only at h
  split at h
  case isTrue hg =>
    split at h
    · simp only [Option.some.injEq, Prod.mk.injEq] at h
      obtain ⟨rfl, rfl, rfl⟩ := h
      refine ⟨hg.1, fun c hc => List.all_eq_true.1 hg.2 c hc, ?_, hmem⟩
      intro pt hpt
      cases hpt
    · split at h
      case isTrue hpe =>
        simp only [Option.some.injEq, Prod.mk.injEq] at h
        obtain ⟨rfl, rfl, rfl⟩ := h
        refine ⟨hg.1, fun c hc => List.all_eq_true.1 hg.2 c hc, ?_, hmem⟩
        intro pt hpt
        cases hpt
      case isFalse hpe =>
        split at h
        case isTrue hdig =>
          split at h
          case isTrue hdef =>
            simp only [Option.some.injEq, Prod.mk.injEq] at h
            obtain ⟨rfl, rfl, rfl⟩ := h
            refine ⟨hg.1, fun c hc => List.all_eq_true.1 hg.2 c hc, ?_, hmem⟩
            intro pt hpt
            cases hpt
          case isFalse hdef =>
            simp only [Option.some.injEq, Prod.mk.injEq] at h
            obtain ⟨rfl, rfl, rfl⟩ := h
            refine ⟨hg.1, fun c hc => List.all_eq_true.1 hg.2 c hc, ?_, hmem⟩
            intro pt hpt
            obtain rfl := Option.some.inj hpt
            exact ⟨hpe, fun c hc => List.all_eq_true.1 hdig.1 c hc, hdig.2, hdef⟩
        case isFalse hdig => cases h
  case isFalse hg => cases h

theorem parsePath_facts (l : List Char) (hl : ∀ c ∈ l, isPathStop c = false) :
    parsePath l ≠ [] ∧ ∀ s ∈ parsePath l, ∀ c ∈ s, c ≠ '/' ∧ isPathStop c = false := by
  cases l with
  | nil =>
    refine ⟨by simp [parsePath], ?_⟩
    intro s hs c hc
    simp only [parsePath, List.mem_cons, List.not_mem_nil, or_false] at hs
    subst hs
    simp at hc
  | cons a t =>
    refine ⟨splitChar_ne_nil '/' t, ?_⟩
    intro s hs c hc
    have h2 := splitChar_mem '/' t s hs c hc
    exact ⟨h2.2, hl c (List.mem_cons_of_mem _ h2.1)⟩

theorem parseQueryFragment_fst_facts (r : List Char) (qc : List Char)
    (h : (parseQueryFragment r).1 = some qc) : ∀ c ∈ qc, c ≠ '#' := by
  cases r with
  | nil => simp [parseQueryFragment] at h
  | cons a t =>
    unfold parseQueryFragment at h
    cases ha : (a == '?') with
    | true =>
      simp [ha] at h
      intro c hc
      rw [← h] at hc
      have := takeUntil_fst_false (fun x => x == '#') t c hc
      simpa using this
    | false =>
      cases ha2 : (a == '#') with
      | true => simp [ha, ha2] at h
      | false => simp [ha, ha2] at h

theorem parseRelative_wf (scheme rest : List Char) (u : Url) (rd : RelativeSchemeData)
    (h : parseRelative scheme rest = some u) (hrd : u.schemeData = SchemeData.Relative rd) :
    (∀ uc, rd.userinfo = some uc → ∀ c ∈ uc, isAuthorityStop c = false) ∧
    (rd.host ≠ [] ∨ scheme = "file".data) ∧
    (∀ c ∈ rd.host, isHostChar c = true) ∧
    (∀ pt, rd.port = some pt → pt ≠ [] ∧ (∀ c ∈ pt, isDigitChar c = true) ∧
      digitsVal pt ≤ 65535 ∧ defaultPort scheme ≠ some (digitsVal pt)) ∧
    rd.path ≠ [] ∧
    (∀ s ∈ rd.path, ∀ c ∈ s, c ≠ '/' ∧ isPathStop c = false) ∧
    (∀ qc, u.query = some qc → ∀ c ∈ qc, c ≠ '#') := by
  unfold parseRelative at h
  dsimp only at h
  split at h
  case h_1 ui host port heq =>
    obtain rfl := Option.some.inj h
    dsimp only at hrd
    injection hrd with hrd2
    subst hrd2
    have hA := parseAuthority_some scheme _ ui host port heq
    have hAfront := takeUntil_fst_false isAuthorityStop
      (rest.dropWhile (fun c => c == '/'))
    have hPfront := takeUntil_fst_false isPathStop
      (takeUntil isAuthorityStop (rest.dropWhile (fun c => c == '/'))).2
    have hPP := parsePath_facts _ hPfront
    refine ⟨?_, hA.1, hA.2.1, hA.2.2.1, hPP.1, hPP.2, ?_⟩
    · intro uc huc c hc
      exact hAfront c (hA.2.2.2 uc huc c hc)
    · intro qc hqc c hc
      exact parseQueryFragment_fst_facts _ qc hqc c hc
  case h_2 => cases h

/-! ### Parse-serialize roundtrip for http(s) urls -/

theorem parseUrlChars_roundtrip (l : List Char) (u : Url)
    (h : parseUrlChars l = some u)
    (hs : u.scheme = "http".data ∨ u.scheme = "https".data) :
    parseUrlChars (serializeUrlChars u) = some u := by
  have hchars : ∀ c ∈ u.scheme, isSchemeChar c = true ∧ (c == ':') = false := by
    rcases hs with hs | hs <;> rw [hs]
    · exact http_scheme_chars
    · exact https_scheme_chars
  have hhead : schemeHeadAlpha u.scheme = true := by
    rcases hs with hs | hs <;> rw [hs] <;> decide
  have hlower : u.scheme.map asciiLower = u.scheme := by
    rcases hs with hs | hs <;> rw [hs] <;> decide
  have hmem : u.scheme ∈ relativeSchemes := by
    rcases hs with hs | hs <;> rw [hs] <;> decide
  obtain ⟨rd, hrd⟩ := (parseUrlChars_scheme_class l u h).1 hmem
  obtain ⟨rest, hpr⟩ := parseUrlChars_rel_rest l u rd h hrd
  have wf := parseRelative_wf u.scheme rest u rd hpr hrd
  have hhostne : rd.host ≠ [] := by
    rcases wf.2.1 with h1 | h1
    · exact h1
    · rcases hs with hs2 | hs2 <;> rw [hs2] at h1 <;> exact absurd h1 (by decide)
  have hbuild := parseRelative_build u.scheme rd u.query u.fragment
    wf.1 hhostne wf.2.2.1 wf.2.2.2.1 wf.2.2.2.2.1 wf.2.2.2.2.2.1 wf.2.2.2.2.2.2
  have hueq :
      ({ scheme := u.scheme,
         schemeData := SchemeData.Relative rd,
         query := u.query,
         fragment := u.fragment } : Url) = u := by
    rw [← hrd]
  have hser : serializeUrlChars u =
      u.scheme ++ ':' :: ('/' :: '/' :: (serializeRel rd ++ serializeQF u.query u.fragment)) := by
    unfold serializeUrlChars
    rw [hrd]
    simp
  rw [hser]
  unfold parseUrlChars
  rw [schemeSplit_append u.scheme _ hchars []]
  simp only [List.reverse_nil, List.nil_append]
  rw [if_pos hhead]
  rw [hlower, if_pos hmem, hbuild, hueq]

/-! ### Canonicalization-level helper lemmas -/

theorem canonicalize_via_canonUrlOf (s : String) (u : Url) (h : canonUrlOf s = some u) :
    canonicalize_http_address s = canonicalize_http_url u := by
  unfold canonicalize_http_address
  unfold canonUrlOf at h
  cases hp : parseUrl s with
  | some v =>
    rw [hp] at h
    dsimp only at h ⊢
    obtain rfl := Option.some.inj h
    rfl
  | none =>
    rw [hp] at h
    cases hp2 : parseUrl ("fake://" ++ s) with
    | some v =>
      rw [hp2] at h
      dsimp only at h ⊢
      obtain rfl := Option.some.inj h
      rfl
    | none =>
      rw [hp2] at h
      dsimp only at h
      cases h

theorem canonUrlOf_nonrel_scheme (s : String) (u : Url) (p : List Char)
    (h : canonUrlOf s = some u) (hd : u.schemeData = SchemeData.NonRelative p) :
    u.scheme ≠ "http".data ∧ u.scheme ≠ "https".data := by
  unfold canonUrlOf at h
  cases hp : parseUrl s with
  | some v =>
    rw [hp] at h
    dsimp only at h
    obtain rfl := Option.some.inj h
    have hcl := (parseUrlChars_scheme_class s.data _ hp).2 p hd
    constructor
    · intro he
      rw [he] at hcl
      exact hcl (by decide)
    · intro he
      rw [he] at hcl
      exact hcl (by decide)
  | none =>
    rw [hp] at h
    cases hp2 : parseUrl ("fake://" ++ s) with
    | some v =>
      rw [hp2] at h
      dsimp only at h
      obtain rfl := Option.some.inj h
      show ([] : List Char) ≠ "http".data ∧ ([] : List Char) ≠ "https".data
      exact ⟨by decide, by decide⟩
    | none =>
      rw [hp2] at h
      dsimp only at h
      cases h

theorem canonicalize_http_url_nonrel (u : Url) (p : List Char)
    (hd : u.schemeData = SchemeData.NonRelative p)
    (hs1 : u.scheme ≠ "http".data) (hs2 : u.scheme ≠ "https".data) :
    canonicalize_http_url u =
      match parseI32 p with
      | some 443 => some ("https://" ++ u.serialize)
      | some _ => some ("http://" ++ u.serialize)
      | none =>
        match parseI32 p.dropLast with
        | some 443 => some ("https://" ++ u.serialize)
        | some _ => some ("http://" ++ u.serialize)
        | none => some ("http" ++ u.serialize) := by
  unfold canonicalize_http_url
  rw [if_neg (by rintro (he | he); exact hs1 he; exact hs2 he), hd]

theorem canonicalize_of_http_scheme (s : String) (u : Url)
    (h : parseUrl s = some u)
    (hs : u.scheme = "http".data ∨ u.scheme = "https".data) :
    canonicalize_http_address s = some u.serialize := by
  unfold canonicalize_http_address
  rw [h]
  dsimp only
  unfold canonicalize_http_url
  rw [if_pos hs]

/-! ### The synthetic-scheme fallback always yields an http:// address -/

theorem parseI32_slash (x : List Char) : parseI32 ('/' :: x) = none := by
  unfold parseI32
  dsimp only
  rw [if_neg (by decide : ¬((('/' : Char) == '+') = true)),
    if_neg (by decide : ¬((('/' : Char) == '-') = true))]
  dsimp only
  rw [if_neg]
  rintro ⟨h1, h2⟩
  rw [List.all_cons, Bool.and_eq_true] at h2
  exact absurd h2.1 (by decide)

theorem parseI32_slash_dropLast (x : List Char) : parseI32 (('/' :: x).dropLast) = none := by
  cases x with
  | nil => rfl
  | cons c t =>
    show parseI32 ('/' :: (c :: t).dropLast) = none
    exact parseI32_slash _

theorem parseUrl_fake (s : String) :
    parseUrl ("fake://" ++ s) = some
      { scheme := "fake".data,
        schemeData := SchemeData.NonRelative ('/' :: '/' :: (takeUntil isPathStop s.data).1),
        query := (parseQueryFragment (takeUntil isPathStop s.data).2).1,
        fragment := (parseQueryFragment (takeUntil isPathStop s.data).2).2 } := by
  have hdata : ("fake://" ++ s).data = "fake".data ++ ':' :: '/' :: '/' :: s.data := rfl
  unfold parseUrl
  rw [hdata]
  unfold parseUrlChars
  rw [schemeSplit_append "fake".data _ (by decide) []]
  simp only [List.reverse_nil, List.nil_append]
  rw [if_pos (by decide)]
  rw [show List.map asciiLower "fake".data = "fake".data from by decide]
  rw [if_neg (by decide)]
  have h0 : isPathStop '/' = false := rfl
  have htu : takeUntil isPathStop ('/' :: '/' :: s.data) =
      ('/' :: '/' :: (takeUntil isPathStop s.data).1, (takeUntil isPathStop s.data).2) := by
    simp [takeUntil, h0]
  rw [htu]

theorem canonicalize_fake_prefix (s : String) (hnone : parseUrl s = none) :
    ∃ r, canonicalize_http_address s = some ("http://" ++ r) := by
  refine ⟨((takeUntil isPathStop s.data).1 ++
    serializeQF (parseQueryFragment (takeUntil isPathStop s.data).2).1
      (parseQueryFragment (takeUntil isPathStop s.data).2).2).asString, ?_⟩
  unfold canonicalize_http_address
  simp only [hnone]
  simp only [parseUrl_fake s]
  rw [canonicalize_http_url_nonrel _ ('/' :: '/' :: (takeUntil isPathStop s.data).1) rfl
    (show ([] : List Char) ≠ "http".data from by decide)
    (show ([] : List Char) ≠ "https".data from by decide)]
  rw [parseI32_slash]
  rw [show ('/' :: '/' :: (takeUntil isPathStop s.data).1).dropLast =
    ('/' :: ('/' :: (takeUntil isPathStop s.data).1)).dropLast from rfl]
  rw [parseI32_slash_dropLast]
  rfl

/-! ### Pipeline lemmas -/

theorem probe_list_ok (clock : Nat → Int) (net : String → Bool) :
    ∀ (cs : List String) (k : Nat), (∀ c ∈ cs, net c = true) →
      probe_list clock net k cs = Except.ok (expected_records clock k cs) := by
  intro cs
  induction cs with
  | nil => intro k _; rfl
  | cons c rest ih =>
    intro k h
    have hc : net c = true := h c (List.mem_cons_self _ _)
    have hget : get_latency clock net k c =
        Except.ok (some { url := c, latency_ms := clock (k + 1) - clock k }) := by
      unfold get_latency record_latency fetch_url
      rw [if_pos hc]
    unfold probe_list
    rw [hget, ih (k + 2) (fun x hx => h x (List.mem_cons_of_mem _ hx))]
    rfl

theorem expected_records_url (clock : Nat → Int) :
    ∀ (cs : List String) (k : Nat), (expected_records clock k cs).map Latency.url = cs := by
  intro cs
  induction cs with
  | nil => intro k; rfl
  | cons c rest ih =>
    intro k
    unfold expected_records
    rw [List.map_cons, ih (k + 2)]

/-! ### Claims -/

/-- Claim C1 (code bug): the spec says a transport-level failure makes the probe
return none and lets later addresses continue; the code instead panics inside
`fetch_url` (`.send().unwrap()`), aborting the whole pipeline, as its own
`# Panics` doc comments and `should_panic` tests record.  With a network oracle
failing on the first address and succeeding on the second, `get_latency`
propagates the panic and `save_latencies` yields no output at all. -/
theorem c1_transport_failure_halts_pipeline :
    get_latency (fun i => (i : Int)) (fun u => u == "http://good.example/") 0
      "http://bad.example/" = Except.error "panic: transport failure" ∧
    save_latencies (fun i => (i : Int)) (fun u => u == "http://good.example/")
      ["http://bad.example", "http://good.example"]
      = Except.error "panic: transport failure" :=
  ⟨rfl, rfl⟩

/-- Claim C2 (code bug): the spec says every explicit non-http scheme is
rejected, but a scheme outside the parser's special list (here `fake`) parses
as `NonRelative` and the code treats it as schemeless, returning a value
instead of none. -/
theorem c2_foreign_scheme_not_rejected :
    canonicalize_http_address "fake://www.google.com" = some "httpfake://www.google.com" :=
  rfl

/-- Claim C3 (code bug): the spec guarantees every canonical output begins with
`http://` or `https://`; the lenient fallback branch concatenates `"http"`
with a serialization that does not start with `"://"`, producing
`httpmailto:x` for the input `mailto:x`. -/
theorem c3_canonical_prefix_violated :
    canonicalize_http_address "mailto:x" = some "httpmailto:x" ∧
    ("http://".data.isPrefixOf "httpmailto:x".data) = false ∧
    ("https://".data.isPrefixOf "httpmailto:x".data) = false :=
  ⟨rfl, by decide, by decide⟩

/-- Claim C4 (counterexample): re-canonicalizing `https://www.example.com:443`
(the successful output for `www.example.com:443`) elides the explicit default
port, which is neither the original output nor the output with a root path
appended. -/
theorem c4_second_pass_elides_default_port :
    canonicalize_http_address "www.example.com:443" = some "https://www.example.com:443" ∧
    canonicalize_http_address "https://www.example.com:443" = some "https://www.example.com/" ∧
    "https://www.example.com/" ≠ "https://www.example.com:443" ∧
    "https://www.example.com/" ≠ "https://www.example.com:443" ++ "/" :=
  ⟨rfl, rfl, by decide, by decide⟩

/-- Claim C4 (amended): for inputs the URL parser accepts with an http or
https scheme, canonicalization is exactly idempotent: the first pass returns
the parser's serialization and the second pass returns it unchanged.  (For
schemeless inputs the second pass may also elide an explicitly written
default port, as the counterexample shows.) -/
theorem c4_idempotence_amended (s : String) (u : Url)
    (h : parseUrl s = some u)
    (hs : u.scheme = "http".data ∨ u.scheme = "https".data) :
    canonicalize_http_address s = some u.serialize ∧
    canonicalize_http_address u.serialize = some u.serialize := by
  refine ⟨canonicalize_of_http_scheme s u h hs, ?_⟩
  have hrt : parseUrl u.serialize = some u := by
    show parseUrlChars (u.serialize).data = some u
    rw [show (u.serialize).data = serializeUrlChars u from rfl]
    exact parseUrlChars_roundtrip s.data u h hs
  exact canonicalize_of_http_scheme u.serialize u hrt hs

/-- Witness for the amended claim C4, at the spec's own example input. -/
theorem c4_idempotence_amended_witness :
    canonicalize_http_address "http://www.example.com" = some "http://www.example.com/" ∧
    canonicalize_http_address "http://www.example.com/" = some "http://www.example.com/" := by
  have h := c4_idempotence_amended "http://www.example.com"
    { scheme := "http".data,
      schemeData := SchemeData.Relative
        { userinfo := none, host := "www.example.com".data, port := none, path := [[]] },
      query := none, fragment := none } rfl (Or.inl rfl)
  exact ⟨h.1, h.2⟩

/-- Claim C5 (counterexample): the schemeless address `127.0.0.1:443` carries
the port text `443`, yet canonicalization yields an `http://` address, because
a numeric host is not scheme-shaped and the synthetic-scheme fallback never
inspects the port. -/
theorem c5_numeric_host_port_443_gets_http :
    canonicalize_http_address "127.0.0.1:443" = some "http://127.0.0.1:443" ∧
    ("https://".data.isPrefixOf "http://127.0.0.1:443".data) = false :=
  ⟨rfl, by decide⟩

/-- Claim C5 (amended): port-to-scheme inference applies exactly to the
schemeless addresses whose host text parses as a scheme (letters, digits,
`+`, `-`, `.`, starting with a letter): for those, a port text that parses as
443 yields an `https://` address and any other parsed integer yields
`http://`.  Every schemeless address that fails the direct parse (numeric
hosts, no port at all, other host characters) canonicalizes with `http://`
regardless of its port text. -/
theorem c5_port_inference_amended (s : String) (u : Url) (p : List Char)
    (h1 : canonUrlOf s = some u) (h2 : u.schemeData = SchemeData.NonRelative p) :
    (parseI32 p = some 443 → canonicalize_http_address s = some ("https://" ++ u.serialize)) ∧
    (∀ n, parseI32 p = some n → n ≠ 443 →
      canonicalize_http_address s = some ("http://" ++ u.serialize)) ∧
    (parseUrl s = none → ∃ r, canonicalize_http_address s = some ("http://" ++ r)) := by
  have hsch := canonUrlOf_nonrel_scheme s u p h1 h2
  have hc := canonicalize_via_canonUrlOf s u h1
  have hnr := canonicalize_http_url_nonrel u p h2 hsch.1 hsch.2
  refine ⟨?_, ?_, fun hn => canonicalize_fake_prefix s hn⟩
  · intro hp
    rw [hc, hnr, hp]
    rfl
  · intro n hp hne
    rw [hc, hnr, hp]
    split
    all_goals first
      | rfl
      | (rename_i hx; exact absurd (Option.some.inj hx) hne)
      | (rename_i hx; cases hx)

/-- Witness for the amended claim C5, at the spec's own 443 scenario. -/
theorem c5_port_inference_amended_witness :
    canonicalize_http_address "www.example.com:443" = some "https://www.example.com:443" := by
  have h := c5_port_inference_amended "www.example.com:443"
    { scheme := "www.example.com".data,
      schemeData := SchemeData.NonRelative "443".data, query := none, fragment := none }
    "443".data rfl rfl
  exact h.1 rfl

/-- Claim C6 (confirmed): when the port text of a nonrelative parse fails
integer parsing, the code strips exactly one trailing character and retries
once: a retry value of 443 infers https, any other integer infers http, and a
second failure falls back to prefixing `http` to the serialization as-is,
still returning a value rather than rejecting. -/
theorem c6_malformed_port_recovery (s : String) (u : Url) (p : List Char)
    (h1 : canonUrlOf s = some u) (h2 : u.schemeData = SchemeData.NonRelative p)
    (h3 : parseI32 p = none) :
    (parseI32 p.dropLast = some 443 →
      canonicalize_http_address s = some ("https://" ++ u.serialize)) ∧
    (∀ n, parseI32 p.dropLast = some n → n ≠ 443 →
      canonicalize_http_address s = some ("http://" ++ u.serialize)) ∧
    (parseI32 p.dropLast = none →
      canonicalize_http_address s = some ("http" ++ u.serialize)) := by
  have hsch := canonUrlOf_nonrel_scheme s u p h1 h2
  have hc := canonicalize_via_canonUrlOf s u h1
  have hnr := canonicalize_http_url_nonrel u p h2 hsch.1 hsch.2
  refine ⟨?_, ?_, ?_⟩
  · intro hp
    rw [hc, hnr, h3, hp]
    rfl
  · intro n hp hne
    rw [hc, hnr]
    simp only [h3, hp]
  · intro hp
    rw [hc, hnr, h3, hp]

/-- Witness for claim C6: `www.example.com:443/` has the malformed port text
`443/`; one trailing character is stripped, the retry reads 443, and https is
inferred. -/
theorem c6_malformed_port_recovery_witness :
    canonicalize_http_address "www.example.com:443/" = some "https://www.example.com:443/" := by
  have h := c6_malformed_port_recovery "www.example.com:443/"
    { scheme := "www.example.com".data,
      schemeData := SchemeData.NonRelative "443/".data, query := none, fragment := none }
    "443/".data rfl rfl rfl
  exact h.1 rfl

/-- Claim C7 (counterexample): `http://` carries an explicit http scheme, yet
the parser rejects it (empty host), so instead of the parser's serialization
the fallback path returns the input with `http` glued onto a schemeless
serialization: `http://http://`, which is not a serialization of the input
address at all. -/
theorem c7_unparseable_http_input :
    parseUrl "http://" = none ∧
    canonicalize_http_address "http://" = some "http://http://" ∧
    "http://http://" ≠ "http://" ∧ "http://http://" ≠ "http://" ++ "/" :=
  ⟨rfl, rfl, by decide, by decide⟩

/-- Claim C7 (amended): for every input address the parser accepts with an
http or https scheme (the parser lower-cases the scheme, so any letter case
is covered), canonicalization succeeds and returns exactly the parser's
normalized serialization, which starts with the parsed (lower-cased) scheme
followed by `://` — the scheme is never changed between http and https.
Inputs with an http(s) scheme the parser rejects (such as `http://`) fall
through to the synthetic-scheme path instead, as the counterexample shows. -/
theorem c7_serialization_amended (s : String) (u : Url)
    (h : parseUrl s = some u)
    (hs : u.scheme = "http".data ∨ u.scheme = "https".data) :
    canonicalize_http_address s = some u.serialize ∧
    ∃ r : String, u.serialize = u.scheme.asString ++ "://" ++ r := by
  refine ⟨canonicalize_of_http_scheme s u h hs, ?_⟩
  have hmem : u.scheme ∈ relativeSchemes := by
    rcases hs with hs | hs <;> rw [hs] <;> decide
  obtain ⟨rd, hrd⟩ := (parseUrlChars_scheme_class s.data u h).1 hmem
  refine ⟨(serializeRel rd ++ serializeQF u.query u.fragment).asString, ?_⟩
  show (serializeUrlChars u).asString = _
  have hlist : serializeUrlChars u =
      (u.scheme ++ "://".data) ++ (serializeRel rd ++ serializeQF u.query u.fragment) := by
    unfold serializeUrlChars
    rw [hrd]
    simp [List.append_assoc]
  exact congrArg List.asString hlist

/-- Witness for the amended claim C7, at the spec's upper-case scenario
`HTTP://www.example.com`: the scheme is lower-cased, a root path is added,
and the scheme stays http. -/
theorem c7_serialization_amended_witness :
    canonicalize_http_address "HTTP://www.example.com" = some "http://www.example.com/" ∧
    ∃ r : String, "http://www.example.com/" = "http" ++ "://" ++ r := by
  have h := c7_serialization_amended "HTTP://www.example.com"
    { scheme := "http".data,
      schemeData := SchemeData.Relative
        { userinfo := none, host := "www.example.com".data, port := none, path := [[]] },
      query := none, fragment := none } rfl (Or.inl rfl)
  exact ⟨h.1, h.2⟩

/-- Claim C8 (counterexample): with one address whose probe has a transport
failure, the spec asks for a successful run with zero records, but the
pipeline propagates the panic and produces no output sequence at all. -/
theorem c8_transport_failure_not_dropped :
    save_latencies (fun i => (i : Int)) (fun _ => false) ["http://bad.example"]
      = Except.error "panic: transport failure" ∧
    (Except.error "panic: transport failure" : Except String (List Latency))
      ≠ Except.ok [] :=
  ⟨rfl, fun h => Except.noConfusion h⟩

/-- Claim C8 (amended): as long as every canonicalized address probes
successfully, the pipeline output is exactly the input mapped through
canonicalization with rejections dropped and then probed in order: one
record per surviving address, in input order, whose url field is exactly
the canonical address that was probed.  A transport failure, however,
panics and aborts the run instead of being dropped, as the counterexample
shows. -/
theorem c8_pipeline_amended (clock : Nat → Int) (net : String → Bool)
    (urls : List String)
    (h : ∀ c ∈ urls.filterMap canonicalize_http_address, net c = true) :
    save_latencies clock net urls =
      Except.ok (expected_records clock 0 (urls.filterMap canonicalize_http_address)) ∧
    (expected_records clock 0 (urls.filterMap canonicalize_http_address)).map Latency.url
      = urls.filterMap canonicalize_http_address :=
  ⟨probe_list_ok clock net _ 0 h, expected_records_url clock _ 0⟩

/-- Witness for the amended claim C8: of three raw addresses, the `ftp://`
one is rejected, and the two survivors produce exactly one record each, in
input order, carrying their canonical addresses. -/
theorem c8_pipeline_amended_witness :
    save_latencies (fun i => (i : Int)) (fun _ => true)
      ["http://a.example", "ftp://b.example", "c.example"] =
      Except.ok [{ url := "http://a.example/", latency_ms := 1 },
        { url := "http://c.example", latency_ms := 1 }] := by
  have h := c8_pipeline_amended (fun i => (i : Int)) (fun _ => true)
    ["http://a.example", "ftp://b.example", "c.example"] (fun c _ => rfl)
  rw [h.1]
  rfl

/-- Claim C9 (confirmed): on a successful fetch the record's latency is the
difference of the two wall-clock readings taken around the fetch, and under
a monotone wall clock that difference is non-negative. -/
theorem c9_latency_elapsed_nonneg (clock : Nat → Int) (net : String → Bool)
    (k : Nat) (s : String)
    (hnet : net s = true) (hmono : ∀ i, clock i ≤ clock (i + 1)) :
    record_latency clock net k s =
      Except.ok (Except.ok { url := s, latency_ms := clock (k + 1) - clock k }) ∧
    0 ≤ clock (k + 1) - clock k := by
  constructor
  · unfold record_latency fetch_url
    rw [hnet]
    rfl
  · exact sub_nonneg.mpr (hmono k)

/-- Witness for claim C9, with the identity wall clock. -/
theorem c9_latency_elapsed_nonneg_witness :
    record_latency (fun i => (i : Int)) (fun _ => true) 0 "http://www.example.com/" =
      Except.ok (Except.ok { url := "http://www.example.com/", latency_ms := 1 }) ∧
    (0 : Int) ≤ 1 := by
  have h := c9_latency_elapsed_nonneg (fun i => (i : Int)) (fun _ => true) 0
    "http://www.example.com/" rfl
    (fun i => by
      show ((i : Int)) ≤ ((i + 1 : Nat) : Int)
      exact_mod_cast Nat.le_succ i)
  exact ⟨by rw [h.1]; rfl, h.2⟩

/-- Claim C10 (confirmed): the inner `Result` of `record_latency` is always
`Ok` — its only non-`Ok` outcome is the transport-failure panic, which is not
a return — so the error branch of `get_latency` is unreachable and whenever
`get_latency` returns it returns `Some` record, never `None`. -/
theorem c10_error_branch_unreachable (clock : Nat → Int) (net : String → Bool)
    (k : Nat) (s : String) :
    (record_latency clock net k s = Except.error "panic: transport failure" ∨
      record_latency clock net k s =
        Except.ok (Except.ok { url := s, latency_ms := clock (k + 1) - clock k })) ∧
    (get_latency clock net k s = Except.error "panic: transport failure" ∨
      get_latency clock net k s =
        Except.ok (some { url := s, latency_ms := clock (k + 1) - clock k })) := by
  cases hn : net s with
  | false =>
    refine ⟨Or.inl ?_, Or.inl ?_⟩
    · unfold record_latency fetch_url
      rw [hn]
      rfl
    · unfold get_latency record_latency fetch_url
      rw [hn]
      rfl
  | true =>
    refine ⟨Or.inr ?_, Or.inr ?_⟩
    · unfold record_latency fetch_url
      rw [hn]
      rfl
    · unfold get_latency record_latency fetch_url
      rw [hn]
      rfl
